import Mathlib

/-!
Verification development for the two containers declared in
`include/ra/sv_set.hpp`: the sorted-vector set `ra::container::sv_set`
and the intrusive doubly-linked list `ra::intrusive::list`.

The sorted-vector set is embedded as a structure holding the list of live
elements (the slots `[0, size)` of the buffer, so `size` is the list's
length), the recorded `capacity_`, and the comparator `comp_` as a
Bool-valued binary function. Raw storage is not modelled byte-by-byte,
but its bounds are not forgotten either: each `insert` reports in an
`oob` field whether one of its element constructions landed past the end
of the allocation it wrote into (such a run is an out-of-bounds write,
with no defined behavior in the program), and the failed grow path's
construction/destruction bookkeeping is modelled explicitly.
-/

namespace RaContainer

/-- The state of an `sv_set<Key, Compare>` object (private members of the
class at lines 540-543): `arr_`'s live prefix `[0, size_)` as a list,
`capacity_`, and the stored comparator `comp_`. `size_` is `elems.length`. -/
structure SvSet (α : Type) where
  elems : List α
  capacity : Nat
  cmp : α → α → Bool

namespace SvSet

variable {α : Type}

/-- `size()` (line 275): the number of live elements. -/
def size (s : SvSet α) : Nat := s.elems.length

/-- The observable result of `std::lower_bound(arr_, arr_ + size_, x, comp_)`
on the live prefix, as an index: the first position whose element does not
satisfy `comp_(elem, x)`. (For a buffer partitioned with respect to
`comp_(·, x)` - in particular a sorted one - this is exactly what
`std::lower_bound` returns; its binary search is an implementation detail.) -/
def lowerBound (cmp : α → α → Bool) (x : α) : List α → Nat
  | [] => 0
  | a :: t => if cmp a x then lowerBound cmp x t + 1 else 0

/-- The test `it == end() || comp_(x, *it)` on the lower-bound index `i`
(lines 401 and 447): true when the key `x` should actually be inserted. -/
def needsInsert (cmp : α → α → Bool) (l : List α) (i : Nat) (x : α) : Bool :=
  match l[i]? with
  | none => true
  | some a => cmp x a

/-- The default constructor `sv_set()` (line 55): null buffer, size 0,
capacity 0, default-constructed comparator `Compare()`. The comparator value
that `Compare()` yields is passed in as `dflt`. -/
def mkDefault (dflt : α → α → Bool) : SvSet α :=
  { elems := [], capacity := 0, cmp := dflt }

/-- The constructor `sv_set(ordered_and_unique_range, first, n, comp)`
(lines 89-103): allocates `n` slots, copies the `n` input elements in
order, and sets `size_ = n`, `capacity_ = n`, `comp_ = comp`. -/
def ofOrderedRange (l : List α) (comp : α → α → Bool) : SvSet α :=
  { elems := l, capacity := l.length, cmp := comp }

/-- The copy constructor `sv_set(const sv_set&)` (lines 161-176): it
delegates to `sv_set()` (default comparator `Compare()`, passed as `dflt`)
and only when `other.size() > 0` copies the elements, takes over
`other.capacity()` and assigns `comp_ = other.key_comp()`. -/
def copyCtor (dflt : α → α → Bool) (other : SvSet α) : SvSet α :=
  if other.size > 0 then
    { elems := other.elems, capacity := other.capacity, cmp := other.cmp }
  else
    mkDefault dflt

/-- What one call to `insert` produces: the member state after the call,
the returned pair `(iterator, bool)` (the iterator as an index into the
buffer), and whether any of the call's element constructions landed past
the end of the allocation it wrote into (`oob`). A run with `oob = true`
is an out-of-bounds write, so the program's behavior there is undefined;
the model records the element sequence the code attempts to build and
flags the run instead of pretending it is clean. -/
structure InsertResult (α : Type) where
  state : SvSet α
  pos : Nat
  inserted : Bool
  oob : Bool

/-- `insert(x)` (lines 397-459). Both branches locate the lower bound of
`x` and test `it == end() || comp_(x, *it)`; when that fails (equivalent
key present) nothing is written. Otherwise the full branch
(`size_ == capacity_`) allocates a new buffer of `capacity_ * 2` slots
(line 402) and constructs `size_ + 1` elements into its slots
`0 .. size_` (prefix moves, the fill of `x`, suffix moves, lines
405-407), so a construction exceeds that allocation exactly when
`size_ + 1 > capacity_ * 2`; the non-full branch keeps the buffer of
`capacity_` slots and writes slots `i .. size_` of it (the shift loop at
lines 448-450 and the fill at line 451), the highest being `size_`, so a
construction exceeds the allocation exactly when
`size_ + 1 > capacity_`. -/
def insert (s : SvSet α) (x : α) : InsertResult α :=
  if s.size = s.capacity then
    let i := lowerBound s.cmp x s.elems
    if needsInsert s.cmp s.elems i x then
      { state := { elems := s.elems.insertIdx i x, capacity := s.capacity * 2,
                   cmp := s.cmp },
        pos := i, inserted := true,
        oob := decide (s.capacity * 2 < s.elems.length + 1) }
    else
      { state := s, pos := i, inserted := false, oob := false }
  else
    let i := lowerBound s.cmp x s.elems
    if needsInsert s.cmp s.elems i x then
      { state := { elems := s.elems.insertIdx i x, capacity := s.capacity,
                   cmp := s.cmp },
        pos := i, inserted := true,
        oob := decide (s.capacity < s.elems.length + 1) }
    else
      { state := s, pos := i, inserted := false, oob := false }

/-- `erase(pos)` (lines 475-485): with `i = pos - arr_`, only when
`i < size_` is the element destroyed and the tail moved down; the returned
iterator is `arr_ + i` in every case. -/
def erase (s : SvSet α) (pos : Nat) : SvSet α × Nat :=
  if pos < s.elems.length then
    ({ elems := s.elems.eraseIdx pos, capacity := s.capacity, cmp := s.cmp }, pos)
  else
    (s, pos)

/-- `find(k)` (lines 523-528): the code returns
`std::lower_bound(arr_, end(), k, comp_)` directly, with no check that the
element at that position is equivalent to `k`. -/
def find (s : SvSet α) (k : α) : Nat := lowerBound s.cmp k s.elems

end SvSet

/-- The state of one slot of the original buffer after a grow attempt: still
holding its live value, or left in the moved-from state by
`std::uninitialized_move_n`. -/
inductive Cell (α : Type) where
  | live (a : α)
  | moved
deriving DecidableEq

/-- The observable outcome of the grow-and-insert path of `insert`
(lines 402-411) when an element construction throws: the original buffer
slot states, how many elements were constructed into the new buffer, how
many of those the `catch` block destroyed before releasing the storage,
whether the storage was released, and the final `size_` / `capacity_`. -/
structure GrowFailOutcome (α : Type) where
  origCells : List (Cell α)
  newConstructed : Nat
  newDestroyed : Nat
  storageReleased : Bool
  sizeAfter : Nat
  capAfter : Nat

namespace SvSet

/-- The grow-and-insert path of `insert` (lines 397-424) when the
copy-construction of `x` performed by `std::uninitialized_fill_n`
(line 406) throws - the element-construction failure the claim injects.
Read off from the source: `std::uninitialized_move_n(arr_, it - arr_,
new_arr)` (line 405) has already move-constructed the `i` prefix elements,
leaving slots `[0, i)` of the original buffer moved-from; the `catch`
block (lines 408-411) runs only `::operator delete(new_arr)` - it destroys
none of the `i` elements already constructed in the new buffer - and
rethrows, so `arr_`, `size_` and `capacity_` keep their old values. -/
def growInsertFillFails (s : SvSet α) (x : α) : GrowFailOutcome α :=
  let i := lowerBound s.cmp x s.elems
  { origCells :=
      (s.elems.take i).map (fun _ => Cell.moved) ++ (s.elems.drop i).map Cell.live
    newConstructed := i
    newDestroyed := 0
    storageReleased := true
    sizeAfter := s.elems.length
    capAfter := s.capacity }

end SvSet

/-- `std::less<Key>` for a linearly ordered key type: the comparator the
template parameter `Compare` defaults to (line 11). -/
def stdLess {α : Type} [LinearOrder α] : α → α → Bool := fun a b => decide (a < b)

/-- The behavior of a STATEFUL comparator type over `int`, as the
`Compare` template parameter admits (the container stores the comparator
by value, line 543):

`struct flag_cmp { bool descending = false;
bool operator()(int a, int b) const { return descending ? b < a : a < b; } };`

`flagCmp d` is the call behavior of the object whose flag is `d`; the
default-constructed `Compare()` is `flagCmp false` (ascending). The flag
is the comparator's state, so a copy of the comparator must carry it. -/
def flagCmp (descending : Bool) : Int → Int → Bool :=
  fun a b => if descending then decide (b < a) else decide (a < b)

/-- An empty `sv_set<int, flag_cmp>` built with the comparator-supplied
constructor (line 66) from a descending `flag_cmp`; used to exhibit the
copy-constructor behaviour on an empty source with comparator state. -/
def emptyFlagSet : SvSet Int := { elems := [], capacity := 0, cmp := flagCmp true }

end RaContainer

namespace RaIntrusive

/-!
The intrusive list (`ra::intrusive::list`, lines 743-1112) is embedded as
pointer structures over an explicit heap: addresses are natural numbers
(`0` plays the role of `nullptr`), each address holds a `list_hook`, and
every operation is the sequence of pointer reads and writes the source
performs, in source order. An element object is identified with the
address of its hook.
-/

/-- A `list_hook` (lines 753-796): the `next_` and `prev_` pointers. -/
structure Hook where
  next : Nat
  prev : Nat
deriving DecidableEq

/-- The heap: what hook each address holds. -/
abbrev Heap : Type := Nat → Hook

/-- A single pointer-field store. -/
def hset (h : Heap) (a : Nat) (v : Hook) : Heap :=
  fun x => if x = a then v else h x

/-- The all-null heap used as the starting point of concrete runs. -/
def nullHeap : Heap := fun _ => { next := 0, prev := 0 }

/-- The `list_hook` copy constructor (line 766): it IGNORES its argument
and produces a hook that belongs to no list (both pointers null, exactly
as the default constructor at line 758 leaves them). -/
def hookCopy (_ : Hook) : Hook := { next := 0, prev := 0 }

/-- A `list` object (lines 1106-1110): the address of its embedded
sentinel hook and its `size_` counter. -/
structure IList where
  sent : Nat
  size : Nat
deriving DecidableEq

/-- The default constructor `list()` (lines 924-929): the sentinel is
linked to itself both ways and the size is zero. `s` is the address the
new object's sentinel hook lives at. -/
def listInit (h : Heap) (s : Nat) : Heap × IList :=
  (hset h s { next := s, prev := s }, { sent := s, size := 0 })

/-- The heap effect of `insert(pos, value)` (lines 1011-1019), the four
pointer writes in source order: `pos->prev_->next_ = &value;`
`value.hook.next_ = pos;` `value.hook.prev_ = pos->prev_;`
`pos->prev_ = &value;`. `a` is the address of the inserted element's
hook. -/
def insertHeap (h : Heap) (pos a : Nat) : Heap :=
  let p := (h pos).prev
  let h1 := hset h p { h p with next := a }
  let h2 := hset h1 a { next := pos, prev := (h1 pos).prev }
  hset h2 pos { h2 pos with prev := a }

/-- `insert(pos, value)` (lines 1011-1019): the pointer writes of
`insertHeap`, `++size_`, and the returned iterator `iterator(&value)`. -/
def listInsert (h : Heap) (l : IList) (pos a : Nat) : Heap × IList × Nat :=
  (insertHeap h pos a, { l with size := l.size + 1 }, a)

/-- The heap effect of `erase(pos)` (lines 1029-1035), the two pointer
writes in source order: `pos->prev_->next_ = pos->next_;`
`pos->next_->prev_ = pos->prev_;`. -/
def eraseHeap (h : Heap) (pos : Nat) : Heap :=
  let h1 := hset h ((h pos).prev) { h ((h pos).prev) with next := (h pos).next }
  hset h1 ((h1 pos).next) { h1 ((h1 pos).next) with prev := (h1 pos).prev }

/-- `erase(pos)` (lines 1029-1035): the pointer writes of `eraseHeap`,
`--size_` (for any position satisfying the member function's precondition
the list is nonempty, so the `size_type` decrement does not wrap), and the
returned iterator `iterator(pos->next_)` as read after the writes. -/
def listErase (h : Heap) (l : IList) (pos : Nat) : Heap × IList × Nat :=
  (eraseHeap h pos, { l with size := l.size - 1 }, ((eraseHeap h pos) pos).next)

/-- `push_back(x)` (lines 1041-1043): `insert(end(), x)`, and `end()` is
`iterator(&sentinel_)` (line 1103). -/
def listPushBack (h : Heap) (l : IList) (a : Nat) : Heap × IList :=
  let r := listInsert h l l.sent a
  (r.1, r.2.1)

/-- `pop_back()` (lines 1052-1056): when `size_ > 0`, `erase(--end())`,
and decrementing `end()` yields `iterator(sentinel_.prev_)`. -/
def listPopBack (h : Heap) (l : IList) : Heap × IList :=
  if l.size > 0 then
    let r := listErase h l ((h l.sent).prev)
    (r.1, r.2.1)
  else
    (h, l)

/-- The move constructor `list(list&& other)` (lines 949-953): the member
initializer `sentinel_(other.sentinel_)` invokes the `list_hook` COPY
constructor `hookCopy` (line 766), `size_(other.size_)` copies the
counter, and then the source is reset to an empty self-ring with size 0.
`d` is the address of the destination object's sentinel hook. Returns the
heap, the destination list and the moved-from source list. -/
def listMoveCtor (h : Heap) (l : IList) (d : Nat) : Heap × IList × IList :=
  let h1 := hset h d (hookCopy (h l.sent))
  let h2 := hset h1 l.sent { next := l.sent, prev := l.sent }
  (h2, { sent := d, size := l.size }, { sent := l.sent, size := 0 })

/-- `n` forward steps along `next_` pointers, as an iterator's `++`
performs them (line 848). -/
def walkN (h : Heap) (x : Nat) : Nat → Nat
  | 0 => x
  | n + 1 => walkN h ((h x).next) n

/-- `n` backward steps along `prev_` pointers, as an iterator's `--`
performs them (line 861). -/
def walkPrevN (h : Heap) (x : Nat) : Nat → Nat
  | 0 => x
  | n + 1 => walkPrevN h ((h x).prev) n

/-- One public mutating list operation of the claim's scenario, with
positions named by their index in the current element sequence:
`insertAtIdx k a` inserts the fresh element at address `a` before the
`k`-th element (before `end()` when `k` is the current length), and
`eraseAtIdx k` erases the `k`-th element. -/
inductive LOp where
  | pushBack (a : Nat)
  | popBack
  | insertAtIdx (k : Nat) (a : Nat)
  | eraseAtIdx (k : Nat)

/-- The address of the iterator at index `k` of a list whose elements sit
at the addresses `ns`: the `k`-th element's address, or the sentinel `s`
(that is, `end()`) for `k = ns.length`. -/
def posAt (s : Nat) (ns : List Nat) (k : Nat) : Nat := (ns ++ [s]).getD k 0

/-- Run a sequence of list operations, tracking alongside the heap and the
list object the addresses `ns` of the linked elements in list order.
Returns `none` when an operation violates its precondition: inserting an
element whose hook is already linked into the list (or inserting the
sentinel itself, or using an out-of-range position), or erasing at an
out-of-range position. (`pop_back` on an empty list is a no-op in this
code, line 1053, so it is always accepted.) -/
def runOps (s : Nat) : Heap → IList → List Nat → List LOp →
    Option (Heap × IList × List Nat)
  | h, l, ns, [] => some (h, l, ns)
  | h, l, ns, LOp.pushBack a :: rest =>
    if a ∈ ns ∨ a = s then none
    else
      let r := listInsert h l l.sent a
      runOps s r.1 r.2.1 (ns ++ [a]) rest
  | h, l, ns, LOp.popBack :: rest =>
    let r := listPopBack h l
    runOps s r.1 r.2 ns.dropLast rest
  | h, l, ns, LOp.insertAtIdx k a :: rest =>
    if k ≤ ns.length ∧ ¬(a ∈ ns ∨ a = s) then
      let r := listInsert h l (posAt s ns k) a
      runOps s r.1 r.2.1 (ns.take k ++ a :: ns.drop k) rest
    else none
  | h, l, ns, LOp.eraseAtIdx k :: rest =>
    if k < ns.length then
      let r := listErase h l (ns.getD k 0)
      runOps s r.1 r.2.1 (ns.eraseIdx k) rest
    else none

/-- Run a sequence of operations on a freshly constructed list whose
sentinel lives at address `s` in the heap `h0`. -/
def execOps (s : Nat) (h0 : Heap) (ops : List LOp) :
    Option (Heap × IList × List Nat) :=
  let r := listInit h0 s
  runOps s r.1 r.2 [] ops

/-- `chainNP h x cs y`: starting at node `x`, the `next_` pointers walk
through exactly the nodes `cs` and then hit `y`, and the matching `prev_`
pointers all point one step back. -/
def chainNP (h : Heap) : Nat → List Nat → Nat → Prop
  | x, [], y => (h x).next = y ∧ (h y).prev = x
  | x, c :: cs, y => (h x).next = c ∧ (h c).prev = x ∧ chainNP h c cs y

/-- The representation invariant of a list whose sentinel is `s` and whose
elements sit at the distinct addresses `ns` in list order: the sentinel
and the elements form one closed doubly-linked ring. -/
def ringRepr (h : Heap) (s : Nat) (ns : List Nat) : Prop :=
  chainNP h s ns s ∧ ns.Nodup ∧ s ∉ ns

/-- The navigation facts of claim C7, read off a `runOps` result:
`size()` equals the number of linked elements, `size()` forward steps
from `begin()` (that is, from `sentinel_.next_`) reach `end()`, and
`size()` backward steps from `end()` reach `begin()`. A `none` (a
precondition-violating run, about which the claim says nothing) yields
`false`, so the theorem's hypothesis that the run is accepted is
essential. -/
def ringNavOK : Option (Heap × IList × List Nat) → Bool
  | none => false
  | some (h, l, ns) =>
    decide (l.size = ns.length) &&
    decide (walkN h ((h l.sent).next) l.size = l.sent) &&
    decide (walkPrevN h l.sent l.size = (h l.sent).next)

/-- The concrete scenario of the spec: push back three elements, erase the
middle one by position, pop the last, then insert one in front. -/
def demoOps : List LOp :=
  [LOp.pushBack 2, LOp.pushBack 3, LOp.pushBack 4, LOp.eraseAtIdx 1,
   LOp.popBack, LOp.insertAtIdx 0 5]

/-- A one-element list (sentinel at address 1, element at address 2), the
source for the move-construction counterexample. -/
def moveDemoSrc : Heap × IList :=
  let r0 := listInit nullHeap 1
  let r1 := listInsert r0.1 r0.2 1 2
  (r1.1, r1.2.1)

/-- Move-constructing a destination list (sentinel at address 3) from
`moveDemoSrc`. -/
def moveDemo : Heap × IList × IList :=
  listMoveCtor moveDemoSrc.1 moveDemoSrc.2 3

end RaIntrusive

namespace RaContainer

section Theorems

variable {α : Type}

/-- C10: `erase(pos)` with `pos = end()` is a no-op: the guard `i < size_`
(line 478) fails at `i = size_`, so no element is destroyed, the elements
and capacity are unchanged, and the returned iterator `arr_ + i` equals
`end()`. -/
theorem sv_erase_end_noop (s : SvSet α) :
    s.erase s.elems.length = (s, s.elems.length) := by
  simp [SvSet.erase]

/-- C2 (failing part): `find` on the set `{1, 3}` with the absent key `2`
returns the position of the element `3` (index 1), not the end position
(index 2), because the code returns `std::lower_bound` without checking
the found element for equivalence; the function's own header comment says
`end()` is returned when no element with the key is found. -/
theorem sv_find_absent_not_end :
    ((2 : Int) ∉ (SvSet.ofOrderedRange [1, 3] stdLess).elems) ∧
      (SvSet.ofOrderedRange [1, 3] stdLess).find 2 = 1 ∧
      (SvSet.ofOrderedRange [1, 3] stdLess).elems.length = 2 := by
  refine ⟨by decide, ?_, by decide⟩
  simp [SvSet.find, SvSet.ofOrderedRange, SvSet.lowerBound, stdLess]

/-- C3 (failing part): inserting the absent key `5` into a
default-constructed set (size 0 = capacity 0) takes the reallocating
branch, which allocates `capacity_ * 2 = 0` slots and leaves
`capacity_ = 0` while the insertion is performed and `size_` becomes 1;
the claim (and the spec) require capacity 1, and the repository's own test
"Insert to an empty set" expects capacity 2. -/
theorem sv_insert_empty_capacity_zero :
    ((SvSet.mkDefault (stdLess (α := Int))).insert 5).inserted = true ∧
      ((SvSet.mkDefault (stdLess (α := Int))).insert 5).state.elems = [5] ∧
      ((SvSet.mkDefault (stdLess (α := Int))).insert 5).state.capacity = 0 := by
  refine ⟨?_, ?_, ?_⟩ <;>
    simp [SvSet.insert, SvSet.mkDefault, SvSet.size, SvSet.lowerBound,
      SvSet.needsInsert]

/-- C5 (failing part): the state reached from the default constructor by
the single public operation `insert(0)` violates `capacity >= size`: its
size is 1 but its recorded capacity is 0 (the grow path doubled a zero
capacity while constructing the element past the end of the zero-byte
allocation). -/
theorem sv_capacity_lt_size_reachable :
    ((SvSet.mkDefault (stdLess (α := Int))).insert 0).state.capacity <
      ((SvSet.mkDefault (stdLess (α := Int))).insert 0).state.size := by
  simp [SvSet.insert, SvSet.mkDefault, SvSet.size, SvSet.lowerBound,
    SvSet.needsInsert]

/-- C9 (failing part): copy-constructing an empty set whose STATEFUL
comparator was built in descending mode yields a copy carrying the
default-constructed comparator state (ascending, `Compare()` =
`flagCmp false`), not a copy of the source's: the assignment
`comp_ = other.key_comp()` sits inside the `if (other.size() > 0)` branch
(lines 162-175), so for an empty source it never runs. At the argument
pair `(1, 2)` the copy's comparator answers `true` while the source's
answers `false`, so the copy's comparator differs from the source's,
although the element sequences (both empty) agree. (For a stateless
comparator type such as `std::less` or `std::greater` the skipped
assignment is unobservable - default-constructing the type reproduces the
source's comparator - which is why the failing instantiation must use a
comparator with state, as the by-value `comp_` member admits.) -/
theorem sv_copy_empty_drops_comparator :
    (SvSet.copyCtor (flagCmp false) emptyFlagSet).cmp 1 2 = true ∧
      emptyFlagSet.cmp 1 2 = false ∧
      (SvSet.copyCtor (flagCmp false) emptyFlagSet).cmp ≠ emptyFlagSet.cmp ∧
      (SvSet.copyCtor (flagCmp false) emptyFlagSet).elems = emptyFlagSet.elems := by
  refine ⟨by decide, by decide, fun h => ?_, by decide⟩
  have h12 := congrFun (congrFun h 1) 2
  simp [SvSet.copyCtor, SvSet.mkDefault, SvSet.size, emptyFlagSet,
    flagCmp] at h12

/-- C1 (failing part): on the set `{1}` at full capacity 1, inserting the
absent key `2` takes the grow path with lower-bound index 1; when the
construction of the new element (the `uninitialized_fill_n` at line 406)
throws, the one prefix element has already been moved out of the original
buffer (slot 0 is moved-from, not the untouched `live 1` the strong
guarantee requires), and the `catch` block releases the new buffer's
storage without destroying the one element already constructed in it
(`newDestroyed = 0` though `newConstructed = 1`), leaking it. -/
theorem sv_grow_fail_not_strong :
    ((SvSet.ofOrderedRange [1] stdLess).growInsertFillFails (2 : Int)).origCells
        = [Cell.moved] ∧
      ((SvSet.ofOrderedRange [1] stdLess).growInsertFillFails (2 : Int)).origCells
        ≠ [Cell.live 1] ∧
      ((SvSet.ofOrderedRange [1] stdLess).growInsertFillFails (2 : Int)).newConstructed = 1 ∧
      ((SvSet.ofOrderedRange [1] stdLess).growInsertFillFails (2 : Int)).newDestroyed = 0 ∧
      ((SvSet.ofOrderedRange [1] stdLess).growInsertFillFails (2 : Int)).storageReleased = true := by
  refine ⟨?_, ?_, ?_, rfl, rfl⟩ <;>
    simp [SvSet.growInsertFillFails, SvSet.ofOrderedRange, SvSet.lowerBound,
      stdLess]

/-- `lowerBound` is the first index whose element no longer satisfies
`cmp elem x`: if all elements before `j` satisfy it and the one at `j`
does not, the lower bound is exactly `j`. -/
theorem lowerBound_eq_index (cmp : α → α → Bool) (x : α) :
    ∀ (l : List α) (j : Nat) (hj : j < l.length),
      (∀ (k : Nat) (hk : k < j), cmp (l.get ⟨k, Nat.lt_trans hk hj⟩) x = true) →
      cmp (l.get ⟨j, hj⟩) x = false →
      SvSet.lowerBound cmp x l = j := by
  intro l
  induction l with
  | nil => intro j hj _ _; simp at hj
  | cons a t ih =>
    intro j hj hpre hstop
    cases j with
    | zero =>
      simp only [List.get] at hstop
      simp [SvSet.lowerBound, hstop]
    | succ j =>
      have ha : cmp a x = true := hpre 0 (Nat.succ_pos j)
      simp only [SvSet.lowerBound, ha, if_true]
      have ht : SvSet.lowerBound cmp x t = j := by
        refine ih j (by simpa using hj) (fun k hk => hpre (k + 1) (by omega)) ?_
        simpa using hstop
      omega

/-- In a buffer sorted strictly by `cmp` (with `cmp` negatively
transitive), every element before an element equivalent to `x` compares
less than `x`. -/
theorem sorted_prefix_lt_of_equiv {cmp : α → α → Bool} {l : List α}
    (hs : l.Pairwise (fun a b => cmp a b = true))
    (hnt : ∀ a b c, cmp a b = false → cmp b c = false → cmp a c = false)
    {x : α} {j : Nat} (hj : j < l.length)
    (hxj : cmp x (l.get ⟨j, hj⟩) = false)
    (k : Nat) (hk : k < j) : cmp (l.get ⟨k, Nat.lt_trans hk hj⟩) x = true := by
  have hkj : cmp (l.get ⟨k, Nat.lt_trans hk hj⟩) (l.get ⟨j, hj⟩) = true :=
    List.pairwise_iff_get.mp hs ⟨k, Nat.lt_trans hk hj⟩ ⟨j, hj⟩ hk
  by_contra h
  have h0 : cmp (l.get ⟨k, Nat.lt_trans hk hj⟩) x = false :=
    Bool.eq_false_iff.mpr h
  have := hnt _ x _ h0 hxj
  rw [this] at hkj
  exact Bool.false_ne_true hkj

/-- C6: inserting a key `x` whose equivalent (an element comparing neither
before nor after `x`) is already at index `j` of a sorted set performs no
mutation (and in particular no element construction at all, so no
out-of-bounds write either) and returns the pair `(position j, false)`:
both branches of `insert` find `j` as the lower bound, the test
`it == end() || comp_(x, *it)` fails there, and `(it, false)` is returned
with the state untouched. The hypotheses are the class invariant (elements
strictly ascending under `comp_`) and negative transitivity of the
comparator (part of it being a strict weak order). -/
theorem sv_insert_present_noop (s : SvSet α) (x : α)
    (hs : s.elems.Pairwise (fun a b => s.cmp a b = true))
    (hnt : ∀ a b c, s.cmp a b = false → s.cmp b c = false → s.cmp a c = false)
    (j : Nat) (hj : j < s.elems.length)
    (hxj : s.cmp x (s.elems.get ⟨j, hj⟩) = false)
    (hjx : s.cmp (s.elems.get ⟨j, hj⟩) x = false) :
    s.insert x = { state := s, pos := j, inserted := false, oob := false } := by
  have hlb : SvSet.lowerBound s.cmp x s.elems = j :=
    lowerBound_eq_index s.cmp x s.elems j hj
      (sorted_prefix_lt_of_equiv hs hnt hj hxj) hjx
  have hsome : s.elems[j]? = some (s.elems.get ⟨j, hj⟩) := by
    rw [List.getElem?_eq_getElem hj]
    simp
  have hxj2 : s.cmp x s.elems[j] = false := by
    simpa [List.get_eq_getElem] using hxj
  have hni : SvSet.needsInsert s.cmp s.elems j x = false := by
    simp [SvSet.needsInsert, hsome, hxj2]
  unfold SvSet.insert
  by_cases hc : s.size = s.capacity <;> simp [hc, hlb, hni]

/-- Witness for `sv_insert_present_noop`: in the sorted set `{1, 2, 3}`
under `std::less`, inserting the already-present key `2` leaves the set
unchanged and returns position 1 with the flag `false`. -/
theorem sv_insert_present_noop_witness :
    SvSet.insert (SvSet.ofOrderedRange [1, 2, 3] stdLess) (2 : Int)
      = { state := SvSet.ofOrderedRange [1, 2, 3] stdLess, pos := 1,
          inserted := false, oob := false } :=
  sv_insert_present_noop (SvSet.ofOrderedRange [1, 2, 3] stdLess) 2
    (by simp [SvSet.ofOrderedRange]; decide)
    (fun a b c hab hbc => by
      simp only [SvSet.ofOrderedRange, stdLess, decide_eq_false_iff_not,
        not_lt] at hab hbc ⊢
      omega)
    1 (by decide) (by decide) (by decide)

/-- C8 (failing part): the round-trip scenario inserts keys one at a time
into a default-constructed set, and already its first two inserts write
out of bounds, so the program never reaches the claimed well-defined
sorted sequence. Concretely for the keys `3` then `1`: the first insert
finds size 0 = capacity 0, takes the grow path, allocates
`capacity_ * 2 = 0` bytes and constructs the element past the end of that
allocation (`oob`), leaving capacity 0 under size 1; the second insert
finds size 1 ≠ capacity 0, takes the non-reallocating branch and
constructs into slot 1 of the same zero-slot buffer (`oob` again), with
the recorded capacity still 0 below the element count 2. -/
theorem sv_roundtrip_first_inserts_oob :
    ((SvSet.mkDefault (stdLess (α := Int))).insert 3).oob = true ∧
      ((SvSet.mkDefault (stdLess (α := Int))).insert 3).inserted = true ∧
      (((SvSet.mkDefault (stdLess (α := Int))).insert 3).state.insert 1).oob = true ∧
      (((SvSet.mkDefault (stdLess (α := Int))).insert 3).state.insert 1).inserted
        = true ∧
      (((SvSet.mkDefault (stdLess (α := Int))).insert 3).state.insert 1).state.elems
        = [1, 3] ∧
      (((SvSet.mkDefault (stdLess (α := Int))).insert 3).state.insert 1).state.capacity
        = 0 := by
  refine ⟨?_, ?_, ?_, ?_, ?_, ?_⟩ <;>
    simp [SvSet.insert, SvSet.mkDefault, SvSet.size, SvSet.lowerBound,
      SvSet.needsInsert, stdLess]

end Theorems

end RaContainer

namespace RaIntrusive

/-- C4 (failing part): move-constructing from a one-element list does not
transfer the element. The destination's sentinel hook is initialized by
the `list_hook` copy constructor, which ignores its argument and nulls
both pointers, so although the destination's `size_` is 1, one forward
step from its `begin()` lands at the null address, not back at its
sentinel - the destination is not a ring holding the source's element.
(The second half of the claim does hold: the source is left an empty
self-ring with size 0.) -/
theorem ilist_move_ctor_not_transfer :
    moveDemo.2.1.size = 1 ∧
      (moveDemo.1 moveDemo.2.1.sent).next = 0 ∧
      (moveDemo.1 moveDemo.2.1.sent).prev = 0 ∧
      walkN moveDemo.1 ((moveDemo.1 moveDemo.2.1.sent).next) moveDemo.2.1.size
        ≠ moveDemo.2.1.sent ∧
      (moveDemo.1 moveDemo.2.2.sent).next = moveDemo.2.2.sent ∧
      (moveDemo.1 moveDemo.2.2.sent).prev = moveDemo.2.2.sent ∧
      moveDemo.2.2.size = 0 := by
  decide

/-- Splitting a next/prev chain at an interior node. -/
theorem chainNP_append (h : Heap) :
    ∀ (u : List Nat) (x c : Nat) (v : List Nat) (y : Nat),
      chainNP h x (u ++ c :: v) y ↔ chainNP h x u c ∧ chainNP h c v y := by
  intro u
  induction u with
  | nil =>
    intro x c v y
    simp [chainNP, and_assoc]
  | cons b u2 ih =>
    intro x c v y
    simp [chainNP, ih, and_assoc]

/-- The backward pointer of a chain's endpoint is the last node before
it. -/
theorem chainNP_last (h : Heap) :
    ∀ (u : List Nat) (x y : Nat), chainNP h x u y → (h y).prev = u.getLastD x := by
  intro u
  induction u with
  | nil => intro x y hch; exact hch.2
  | cons c cs ih =>
    intro x y hch
    rw [List.getLastD_cons]
    exact ih c y hch.2.2

/-- The forward pointer at a chain's start is the first node after it. -/
theorem chainNP_head (h : Heap) (u : List Nat) (x y : Nat)
    (hch : chainNP h x u y) : (h x).next = u.headD y := by
  cases u with
  | nil => exact hch.1
  | cons c cs => exact hch.1

/-- A chain only reads the `next` fields of its start and inner nodes and
the `prev` fields of its inner and end nodes; a heap agreeing there
carries the same chain. -/
theorem chainNP_frame (h h2 : Heap) :
    ∀ (u : List Nat) (x y : Nat),
      (∀ z, z ∈ x :: u → (h2 z).next = (h z).next) →
      (∀ z, z ∈ u ++ [y] → (h2 z).prev = (h z).prev) →
      chainNP h x u y → chainNP h2 x u y := by
  intro u
  induction u with
  | nil =>
    intro x y hn hp hch
    exact ⟨(hn x (by simp)).trans hch.1, (hp y (by simp)).trans hch.2⟩
  | cons c cs ih =>
    intro x y hn hp hch
    refine ⟨(hn x (by simp)).trans hch.1, (hp c (by simp)).trans hch.2.1, ?_⟩
    refine ih c y (fun z hz => hn z ?_) (fun z hz => hp z ?_) hch.2.2
    · rcases List.mem_cons.mp hz with hz | hz
      · simp [hz]
      · simp [hz]
    · rcases List.mem_append.mp hz with hz | hz
      · simp [hz]
      · simp [List.mem_singleton.mp hz]

/-- Walking forward along a chain from its first node reaches the
endpoint in exactly as many steps as the chain has nodes. -/
theorem chainNP_walk (h : Heap) :
    ∀ (u : List Nat) (x y : Nat), chainNP h x u y →
      walkN h (u.headD y) u.length = y := by
  intro u
  induction u with
  | nil => intro x y _; rfl
  | cons c cs ih =>
    intro x y hch
    show walkN h ((h c).next) cs.length = y
    rw [chainNP_head h cs c y hch.2.2]
    exact ih c y hch.2.2

/-- Walking backward from a chain's endpoint reaches its first node in
exactly as many steps as the chain has nodes. -/
theorem chainNP_walkPrev (h : Heap) :
    ∀ (u : List Nat) (x y : Nat), chainNP h x u y →
      walkPrevN h y u.length = u.headD y := by
  intro u
  induction u using List.reverseRecOn with
  | nil => intro x y _; rfl
  | append_singleton u2 b ih =>
    intro x y hch
    rw [chainNP_append h u2 x b [] y] at hch
    obtain ⟨h1, h2⟩ := hch
    have hlen : (u2 ++ [b]).length = u2.length + 1 := by simp
    rw [hlen]
    show walkPrevN h ((h y).prev) u2.length = (u2 ++ [b]).headD y
    have hprev : (h y).prev = b := h2.2
    rw [hprev]
    have := ih x b h1
    cases u2 with
    | nil => simpa using this
    | cons d ds => simpa using this

/-- Reading the written address of a single store. -/
theorem hset_same (h : Heap) (b : Nat) (w : Hook) : hset h b w b = w := by
  simp [hset]

/-- Reading any other address of a single store. -/
theorem hset_other (h : Heap) (b : Nat) (w : Hook) (z : Nat) (hz : z ≠ b) :
    hset h b w z = h z := by
  simp [hset, hz]

/-- After `insertHeap h pos a`, the hook of the inserted node `a` points
forward to `pos` and backward to `pos`'s old predecessor. -/
theorem insertHeap_read_a (h : Heap) (pos a : Nat) (hap : a ≠ pos) :
    insertHeap h pos a a = { next := pos, prev := (h pos).prev } := by
  obtain ⟨p, hP⟩ : ∃ p, (h pos).prev = p := ⟨_, rfl⟩
  simp only [insertHeap, hset, hP]
  split_ifs <;> first | omega | (simp; done) | simp_all

/-- After `insertHeap h pos a` with `pos` not its own predecessor, the
hook at `pos` keeps its forward pointer and points backward to `a`. -/
theorem insertHeap_read_pos_ne (h : Heap) (pos a : Nat) (hap : a ≠ pos)
    (hpp : pos ≠ (h pos).prev) :
    insertHeap h pos a pos = { next := (h pos).next, prev := a } := by
  obtain ⟨p, hP⟩ : ∃ p, (h pos).prev = p := ⟨_, rfl⟩
  rw [hP] at hpp
  simp only [insertHeap, hset, hP]
  split_ifs <;> first | omega | simp

/-- After `insertHeap h pos a`, the old predecessor of `pos` points
forward to `a`. -/
theorem insertHeap_next_p (h : Heap) (pos a : Nat) (_hap : a ≠ pos)
    (hpa : (h pos).prev ≠ a) :
    (insertHeap h pos a ((h pos).prev)).next = a := by
  obtain ⟨p, hP⟩ : ∃ p, (h pos).prev = p := ⟨_, rfl⟩
  rw [hP] at hpa
  simp only [insertHeap, hset, hP]
  split_ifs <;> first | omega | simp

/-- After `insertHeap h pos a`, the old predecessor of `pos` (when it is
neither `pos` nor `a`) keeps its backward pointer. -/
theorem insertHeap_prev_p (h : Heap) (pos a : Nat) (hpa : (h pos).prev ≠ a)
    (hpp : (h pos).prev ≠ pos) :
    (insertHeap h pos a ((h pos).prev)).prev = (h ((h pos).prev)).prev := by
  obtain ⟨p, hP⟩ : ∃ p, (h pos).prev = p := ⟨_, rfl⟩
  rw [hP] at hpa hpp
  simp only [insertHeap, hset, hP]
  split_ifs <;> first | omega | simp

/-- `insertHeap` touches no address other than `pos`, `a` and `pos`'s old
predecessor. -/
theorem insertHeap_read_other (h : Heap) (pos a z : Nat) (hz1 : z ≠ pos)
    (hz2 : z ≠ a) (hz3 : z ≠ (h pos).prev) :
    insertHeap h pos a z = h z := by
  obtain ⟨p, hP⟩ : ∃ p, (h pos).prev = p := ⟨_, rfl⟩
  rw [hP] at hz3
  simp only [insertHeap, hset, hP]
  split_ifs <;> first | omega | simp

/-- After `insertHeap h pos a` into an empty ring (`pos` is its own
predecessor), the hook at `pos` points both ways at `a`. -/
theorem insertHeap_read_pos_self (h : Heap) (pos a : Nat) (hap : a ≠ pos)
    (hpp : pos = (h pos).prev) :
    insertHeap h pos a pos = { next := a, prev := a } := by
  obtain ⟨p, hP⟩ : ∃ p, (h pos).prev = p := ⟨_, rfl⟩
  rw [hP] at hpp
  simp only [insertHeap, hset, hP]
  split_ifs <;> first | omega | simp

/-- Any node other than `a` and `pos` keeps its forward pointer under
`insertHeap` unless it is `pos`'s old predecessor. -/
theorem insertHeap_next_other (h : Heap) (pos a z : Nat) (hap : a ≠ pos)
    (hz1 : z ≠ a) (hz2 : z ≠ (h pos).prev) :
    (insertHeap h pos a z).next = (h z).next := by
  by_cases hzpos : z = pos
  · subst hzpos
    rw [insertHeap_read_pos_ne h z a hap (fun e => hz2 e)]
  · rw [insertHeap_read_other h pos a z hzpos hz1 hz2]

/-- Any node other than `a` and `pos` keeps its backward pointer under
`insertHeap`. -/
theorem insertHeap_prev_other (h : Heap) (pos a z : Nat) (_hap : a ≠ pos)
    (hz1 : z ≠ pos) (hz2 : z ≠ a) :
    (insertHeap h pos a z).prev = (h z).prev := by
  by_cases hzp : z = (h pos).prev
  · subst hzp
    rw [insertHeap_prev_p h pos a (fun e => hz2 e) (fun e => hz1 e)]
  · rw [insertHeap_read_other h pos a z hz1 hz2 hzp]

/-- The two stores of `eraseHeap`, with the reads of the second store
resolved: whether or not the erased node's predecessor happens to be the
node itself, the second store rethreads the backward pointer of the
erased node's old successor to its old predecessor. -/
theorem eraseHeap_eq (h : Heap) (pos : Nat) :
    eraseHeap h pos =
      hset (hset h ((h pos).prev) { h ((h pos).prev) with next := (h pos).next })
        ((h pos).next)
        { (hset h ((h pos).prev)
            { h ((h pos).prev) with next := (h pos).next }) ((h pos).next) with
          prev := (h pos).prev } := by
  obtain ⟨p, hP⟩ : ∃ p, (h pos).prev = p := ⟨_, rfl⟩
  obtain ⟨n, hN⟩ : ∃ n, (h pos).next = n := ⟨_, rfl⟩
  funext z
  simp only [eraseHeap, hset, hP, hN]
  split_ifs <;> first | omega | (simp; done) | simp_all

/-- After `eraseHeap h pos`, the erased node's old successor points
backward to its old predecessor. -/
theorem eraseHeap_prev_n (h : Heap) (pos : Nat) :
    (eraseHeap h pos ((h pos).next)).prev = (h pos).prev := by
  rw [eraseHeap_eq, hset_same]

/-- After `eraseHeap h pos`, the erased node's old successor (when
distinct from the old predecessor) keeps its forward pointer. -/
theorem eraseHeap_next_n (h : Heap) (pos : Nat)
    (hnp : (h pos).next ≠ (h pos).prev) :
    (eraseHeap h pos ((h pos).next)).next = (h ((h pos).next)).next := by
  rw [eraseHeap_eq, hset_same]
  rw [hset_other _ _ _ _ hnp]

/-- After `eraseHeap h pos`, the erased node's old predecessor (when
distinct from the old successor) points forward to the old successor,
keeping its backward pointer. -/
theorem eraseHeap_read_p (h : Heap) (pos : Nat)
    (hpn : (h pos).prev ≠ (h pos).next) :
    eraseHeap h pos ((h pos).prev) =
      { h ((h pos).prev) with next := (h pos).next } := by
  rw [eraseHeap_eq, hset_other _ _ _ _ hpn, hset_same]

/-- `eraseHeap` touches no address other than the erased node's old
predecessor and old successor. -/
theorem eraseHeap_read_other (h : Heap) (pos z : Nat)
    (hz1 : z ≠ (h pos).prev) (hz2 : z ≠ (h pos).next) :
    eraseHeap h pos z = h z := by
  rw [eraseHeap_eq, hset_other _ _ _ z hz2, hset_other _ _ _ z hz1]

/-- Erasing the unique element of a one-element ring (the erased node's
predecessor and successor coincide) leaves that node's forward pointer on
the successor. -/
theorem eraseHeap_next_n_self (h : Heap) (pos : Nat)
    (hnp : (h pos).next = (h pos).prev) :
    (eraseHeap h pos ((h pos).next)).next = (h pos).next := by
  obtain ⟨p, hP⟩ : ∃ p, (h pos).prev = p := ⟨_, rfl⟩
  obtain ⟨n, hN⟩ : ∃ n, (h pos).next = n := ⟨_, rfl⟩
  rw [hP, hN] at hnp
  rw [eraseHeap_eq]
  simp only [hP, hN, hset, hnp]
  split_ifs <;> first | omega | simp

/-- Any node other than the erased node's old predecessor keeps its
forward pointer under `eraseHeap`. -/
theorem eraseHeap_next_z (h : Heap) (pos z : Nat) (hz : z ≠ (h pos).prev) :
    (eraseHeap h pos z).next = (h z).next := by
  by_cases hzn : z = (h pos).next
  · subst hzn
    exact eraseHeap_next_n h pos (fun e => hz e)
  · rw [eraseHeap_read_other h pos z hz hzn]

/-- Any node other than the erased node's old successor keeps its
backward pointer under `eraseHeap`. -/
theorem eraseHeap_prev_z (h : Heap) (pos z : Nat) (hz : z ≠ (h pos).next) :
    (eraseHeap h pos z).prev = (h z).prev := by
  by_cases hzp : z = (h pos).prev
  · subst hzp
    rw [eraseHeap_read_p h pos (fun e => hz e)]
  · rw [eraseHeap_read_other h pos z hzp hz]

/-- The four pointer writes of `insert(pos, value)` splice the fresh node
`a` into the ring exactly before the position `pos`: if the old ring runs
`s, u..., v..., s` and `pos` is the first node of `v` (the sentinel `s`
when `v` is empty), the new ring runs `s, u..., a, v..., s`. -/
theorem insertHeap_chain (h : Heap) (s : Nat) (u v : List Nat) (a : Nat)
    (hch : chainNP h s (u ++ v) s)
    (hnd : (u ++ v).Nodup) (hsm : s ∉ u ++ v)
    (ham : a ∉ u ++ v) (has : a ≠ s) :
    chainNP (insertHeap h (v.headD s) a) s (u ++ a :: v) s := by
  cases v with
  | nil =>
    rcases List.eq_nil_or_concat' u with rfl | ⟨u2, b, rfl⟩
    · obtain ⟨hn, hp⟩ : (h s).next = s ∧ (h s).prev = s := by
        simpa [chainNP] using hch
      have h3s : insertHeap h s a s = { next := a, prev := a } :=
        insertHeap_read_pos_self h s a has (by rw [hp])
      have h3a : insertHeap h s a a = { next := s, prev := s } := by
        rw [insertHeap_read_a h s a has, hp]
      show chainNP (insertHeap h s a) s [a] s
      exact ⟨by rw [h3s], by rw [h3a], by rw [h3a], by rw [h3s]⟩
    · have hbu2 : b ∉ u2 := by
        have := hnd
        simp [List.nodup_append] at this
        tauto
      have hbs : b ≠ s := by intro e; exact hsm (by simp [e])
      have hsu2 : s ∉ u2 := fun e => hsm (by simp [e])
      have hau2 : a ∉ u2 := fun e => ham (by simp [e])
      have hab : a ≠ b := by intro e; exact ham (by simp [e])
      obtain ⟨hu2, hlast⟩ : chainNP h s u2 b ∧ chainNP h b [] s := by
        rw [← chainNP_append h u2 s b [] s]
        simpa using hch
      have hp : (h s).prev = b := hlast.2
      have hpos_ne : s ≠ (h s).prev := by rw [hp]; exact Ne.symm hbs
      have h3s : insertHeap h s a s = { next := (h s).next, prev := a } :=
        insertHeap_read_pos_ne h s a has hpos_ne
      have h3a : insertHeap h s a a = { next := s, prev := b } := by
        rw [insertHeap_read_a h s a has, hp]
      have h3bnext : (insertHeap h s a b).next = a := by
        have := insertHeap_next_p h s a has (by rw [hp]; exact Ne.symm hab)
        rwa [hp] at this
      have hmain : chainNP (insertHeap h s a) s (u2 ++ b :: [a]) s := by
        rw [chainNP_append (insertHeap h s a) u2 s b [a] s]
        constructor
        · refine chainNP_frame h (insertHeap h s a) u2 s b ?_ ?_ hu2
          · intro z hz
            rcases List.mem_cons.mp hz with rfl | hz
            · rw [h3s]
            · exact insertHeap_next_other h s a z has
                (fun e => hau2 (e ▸ hz)) (by rw [hp]; exact fun e => hbu2 (e ▸ hz))
          · intro z hz
            rcases List.mem_append.mp hz with hz | hz
            · exact insertHeap_prev_other h s a z has
                (fun e => hsu2 (e ▸ hz)) (fun e => hau2 (e ▸ hz))
            · rw [List.mem_singleton.mp hz]
              have := insertHeap_prev_p h s a
                (by rw [hp]; exact Ne.symm hab) (by rw [hp]; exact hbs)
              rwa [hp] at this
        · exact ⟨h3bnext, by rw [h3a], by rw [h3a], by rw [h3s]⟩
      simpa using hmain
  | cons c v2 =>
    have hsplit := List.nodup_append.mp hnd
    have hund : u.Nodup := hsplit.1
    have hcv2 : c ∉ v2 := (List.nodup_cons.mp hsplit.2.1).1
    have hv2nd : v2.Nodup := (List.nodup_cons.mp hsplit.2.1).2
    have hcu : c ∉ u := fun e => hsplit.2.2 e (by simp)
    have huv2 : ∀ z ∈ u, z ∉ v2 := fun z hz e => hsplit.2.2 hz (by simp [e])
    have hcs : c ≠ s := by intro e; exact hsm (by simp [e])
    have hsu : s ∉ u := fun e => hsm (by simp [e])
    have hsv2 : s ∉ v2 := fun e => hsm (by simp [e])
    have hau : a ∉ u := fun e => ham (by simp [e])
    have hav2 : a ∉ v2 := fun e => ham (by simp [e])
    have hac : a ≠ c := by intro e; exact ham (by simp [e])
    obtain ⟨hu, hcva⟩ : chainNP h s u c ∧ chainNP h c v2 s :=
      (chainNP_append h u s c v2 s).mp hch
    have hp : (h c).prev = u.getLastD s := chainNP_last h u s c hu
    have hpmem : (h c).prev = s ∨ (h c).prev ∈ u := by
      rw [hp]
      rcases List.eq_nil_or_concat' u with rfl | ⟨u2, b, rfl⟩
      · exact Or.inl rfl
      · rw [List.getLastD_concat]
        exact Or.inr (by simp)
    have hcp : c ≠ (h c).prev := by
      rcases hpmem with e | e
      · rw [e]; exact hcs
      · intro e2; exact hcu (e2 ▸ e)
    have hap2 : (h c).prev ≠ a := by
      rcases hpmem with e | e
      · rw [e]; exact Ne.symm has
      · intro e2; exact ham (by simp [e2 ▸ e])
    have h3c : insertHeap h c a c = { next := (h c).next, prev := a } :=
      insertHeap_read_pos_ne h c a hac hcp
    have h3a : insertHeap h c a a = { next := c, prev := (h c).prev } :=
      insertHeap_read_a h c a hac
    show chainNP (insertHeap h c a) s (u ++ a :: c :: v2) s
    rw [chainNP_append (insertHeap h c a) u s a (c :: v2) s]
    constructor
    · -- the prefix chain, retargeted onto a
      rcases List.eq_nil_or_concat' u with rfl | ⟨u2, b, rfl⟩
      · have hps : (h c).prev = s := by simpa using hp
        refine ⟨?_, ?_⟩
        · have := insertHeap_next_p h c a hac hap2
          rwa [hps] at this
        · rw [h3a, hps]
      · have hpb : (h c).prev = b := by
          rw [hp, List.getLastD_concat]
        have hbu2 : b ∉ u2 := by
          have := hund
          simp [List.nodup_append] at this
          tauto
        have hbs : b ≠ s := by intro e; exact hsu (by simp [e])
        have hab : a ≠ b := by intro e; exact hau (by simp [e])
        have hsu2 : s ∉ u2 := fun e => hsu (by simp [e])
        have hau2 : a ∉ u2 := fun e => hau (by simp [e])
        have hcu2 : c ∉ u2 := fun e => hcu (by simp [e])
        obtain ⟨hu2, hbc⟩ : chainNP h s u2 b ∧ chainNP h b [] c := by
          rw [← chainNP_append h u2 s b [] c]
          simpa using hu
        rw [chainNP_append (insertHeap h c a) u2 s b [] a]
        constructor
        · refine chainNP_frame h (insertHeap h c a) u2 s b ?_ ?_ hu2
          · intro z hz
            rcases List.mem_cons.mp hz with rfl | hz
            · exact insertHeap_next_other h c a z hac (Ne.symm has)
                (by rw [hpb]; exact Ne.symm hbs)
            · exact insertHeap_next_other h c a z hac
                (fun e => hau2 (e ▸ hz)) (by rw [hpb]; exact fun e => hbu2 (e ▸ hz))
          · intro z hz
            rcases List.mem_append.mp hz with hz | hz
            · exact insertHeap_prev_other h c a z hac
                (fun e => hcu2 (e ▸ hz)) (fun e => hau2 (e ▸ hz))
            · rw [List.mem_singleton.mp hz]
              exact insertHeap_prev_other h c a b hac
                (fun e => hcu (by simp [← e])) (Ne.symm hab)
        · constructor
          · have := insertHeap_next_p h c a hac hap2
            rwa [hpb] at this
          · rw [h3a, hpb]
    · -- a, then the old suffix chain c :: v2 back to s
      refine ⟨by rw [h3a], by rw [h3c], ?_⟩
      refine chainNP_frame h (insertHeap h c a) v2 c s ?_ ?_ hcva
      · intro z hz
        rcases List.mem_cons.mp hz with rfl | hz
        · rw [h3c]
        · exact insertHeap_next_other h c a z hac (fun e => hav2 (e ▸ hz))
            (by
              intro e
              rcases hpmem with e2 | e2
              · exact hsv2 ((e.trans e2) ▸ hz)
              · exact huv2 _ e2 (e ▸ hz))
      · intro z hz
        rcases List.mem_append.mp hz with hz | hz
        · exact insertHeap_prev_other h c a z hac
            (fun e => hcv2 (e ▸ hz)) (fun e => hav2 (e ▸ hz))
        · rw [List.mem_singleton.mp hz]
          exact insertHeap_prev_other h c a s hac (Ne.symm hcs) (Ne.symm has)

/-- The two pointer writes of `erase(pos)` unlink the node `b` from the
ring: if the old ring runs `s, u..., b, v..., s`, the new ring runs
`s, u..., v..., s`. -/
theorem eraseHeap_chain (h : Heap) (s : Nat) (u v : List Nat) (b : Nat)
    (hch : chainNP h s (u ++ b :: v) s)
    (hnd : (u ++ b :: v).Nodup) (hsm : s ∉ u ++ b :: v) :
    chainNP (eraseHeap h b) s (u ++ v) s := by
  have hsplit := List.nodup_append.mp hnd
  have hund : u.Nodup := hsplit.1
  have hbv : b ∉ v := (List.nodup_cons.mp hsplit.2.1).1
  have hbu : b ∉ u := fun e => hsplit.2.2 e (by simp)
  have huv : ∀ z ∈ u, z ∉ v := fun z hz e => hsplit.2.2 hz (by simp [e])
  have hbs : b ≠ s := fun e => hsm (by simp [e])
  have hsu : s ∉ u := fun e => hsm (by simp [e])
  have hsv : s ∉ v := fun e => hsm (by simp [e])
  obtain ⟨hu, hbvch⟩ : chainNP h s u b ∧ chainNP h b v s :=
    (chainNP_append h u s b v s).mp hch
  have hp : (h b).prev = u.getLastD s := chainNP_last h u s b hu
  have hn : (h b).next = v.headD s := chainNP_head h v b s hbvch
  cases v with
  | nil =>
    have hns : (h b).next = s := by simpa using hn
    rcases List.eq_nil_or_concat' u with rfl | ⟨u2, b2, rfl⟩
    · have hps : (h b).prev = s := by simpa using hp
      show chainNP (eraseHeap h b) s [] s
      constructor
      · have := eraseHeap_next_n_self h b (by rw [hns, hps])
        rwa [hns] at this
      · have := eraseHeap_prev_n h b
        rw [hns, hps] at this
        exact this
    · have hpb2 : (h b).prev = b2 := by rw [hp, List.getLastD_concat]
      have hb2s : b2 ≠ s := fun e => hsu (by simp [e])
      have hb2u2 : b2 ∉ u2 := fun e => (List.nodup_append.mp hund).2.2 e (by simp)
      obtain ⟨hu2, hlastch⟩ : chainNP h s u2 b2 ∧ chainNP h b2 [] b := by
        rw [← chainNP_append h u2 s b2 [] b]
        simpa using hu
      rw [List.append_nil]
      rw [chainNP_append (eraseHeap h b) u2 s b2 [] s]
      constructor
      · refine chainNP_frame h (eraseHeap h b) u2 s b2 ?_ ?_ hu2
        · intro z hz
          apply eraseHeap_next_z
          rw [hpb2]
          rcases List.mem_cons.mp hz with rfl | hz
          · exact Ne.symm hb2s
          · exact fun e => hb2u2 (e ▸ hz)
        · intro z hz
          apply eraseHeap_prev_z
          rw [hns]
          rcases List.mem_append.mp hz with hz | hz
          · exact fun e => hsu (List.mem_append.mpr (Or.inl (e ▸ hz)))
          · rw [List.mem_singleton.mp hz]
            exact hb2s
      · refine ⟨?_, ?_⟩
        · have hrp := eraseHeap_read_p h b (by rw [hpb2, hns]; exact hb2s)
          rw [hpb2] at hrp
          rw [hrp]
          exact hns
        · have := eraseHeap_prev_n h b
          rw [hns, hpb2] at this
          exact this
  | cons c v2 =>
    have hnc : (h b).next = c := by simpa using hn
    have hcs : c ≠ s := fun e => hsm (by simp [e])
    have hcu : c ∉ u := fun e => hsplit.2.2 e (by simp)
    have hcv2 : c ∉ v2 := (List.nodup_cons.mp (List.nodup_cons.mp hsplit.2.1).2).1
    have hsv2 : s ∉ v2 := fun e => hsv (by simp [e])
    obtain ⟨hbc, hcb, hcch⟩ : (h b).next = c ∧ (h c).prev = b ∧ chainNP h c v2 s :=
      hbvch
    rw [chainNP_append (eraseHeap h b) u s c v2 s]
    constructor
    · rcases List.eq_nil_or_concat' u with rfl | ⟨u2, b2, rfl⟩
      · have hps : (h b).prev = s := by simpa using hp
        refine ⟨?_, ?_⟩
        · have hrp := eraseHeap_read_p h b (by rw [hps, hnc]; exact Ne.symm hcs)
          rw [hps] at hrp
          rw [hrp]
          exact hnc
        · have := eraseHeap_prev_n h b
          rw [hnc, hps] at this
          exact this
      · have hpb2 : (h b).prev = b2 := by rw [hp, List.getLastD_concat]
        have hb2s : b2 ≠ s := fun e => hsu (by simp [e])
        have hb2u2 : b2 ∉ u2 := fun e => (List.nodup_append.mp hund).2.2 e (by simp)
        have hb2c : b2 ≠ c := fun e => hcu (by simp [e])
        obtain ⟨hu2, hlastch⟩ : chainNP h s u2 b2 ∧ chainNP h b2 [] b := by
          rw [← chainNP_append h u2 s b2 [] b]
          simpa using hu
        rw [chainNP_append (eraseHeap h b) u2 s b2 [] c]
        constructor
        · refine chainNP_frame h (eraseHeap h b) u2 s b2 ?_ ?_ hu2
          · intro z hz
            apply eraseHeap_next_z
            rw [hpb2]
            rcases List.mem_cons.mp hz with rfl | hz
            · exact Ne.symm hb2s
            · exact fun e => hb2u2 (e ▸ hz)
          · intro z hz
            apply eraseHeap_prev_z
            rw [hnc]
            rcases List.mem_append.mp hz with hz | hz
            · exact fun e => hcu (List.mem_append.mpr (Or.inl (e ▸ hz)))
            · rw [List.mem_singleton.mp hz]
              exact hb2c
        · refine ⟨?_, ?_⟩
          · have hrp := eraseHeap_read_p h b (by rw [hpb2, hnc]; exact hb2c)
            rw [hpb2] at hrp
            rw [hrp]
            exact hnc
          · have := eraseHeap_prev_n h b
            rw [hnc, hpb2] at this
            exact this
    · refine chainNP_frame h (eraseHeap h b) v2 c s ?_ ?_ hcch
      · intro z hz
        apply eraseHeap_next_z
        rw [hp]
        rcases List.mem_cons.mp hz with rfl | hz
        · rcases List.eq_nil_or_concat' u with rfl | ⟨u2, b2, rfl⟩
          · simpa using hcs
          · rw [List.getLastD_concat]
            exact fun e => hcu (by simp [e])
        · rcases List.eq_nil_or_concat' u with rfl | ⟨u2, b2, rfl⟩
          · simp only [List.getLastD_nil]
            exact fun e => hsv2 (e ▸ hz)
          · rw [List.getLastD_concat]
            exact fun e => huv b2 (by simp) (List.mem_cons_of_mem c (e ▸ hz))
      · intro z hz
        apply eraseHeap_prev_z
        rw [hnc]
        rcases List.mem_append.mp hz with hz | hz
        · exact fun e => hcv2 (e ▸ hz)
        · rw [List.mem_singleton.mp hz]
          exact Ne.symm hcs

/-- The iterator at index `k` is the head of the dropped suffix (or the
sentinel when `k` is the length). -/
theorem posAt_eq (s : Nat) (ns : List Nat) (k : Nat) (hk : k ≤ ns.length) :
    posAt s ns k = (ns.drop k).headD s := by
  rcases lt_or_eq_of_le hk with hk2 | hk2
  · have h1 : posAt s ns k = ns[k] := by
      rw [posAt, List.getD_eq_getElem _ 0 (by simp; omega)]
      exact List.getElem_append_left hk2
    have h2 : (ns.drop k).headD s = ns[k] := by
      rw [← List.get_drop_eq_drop ns k hk2]
      rfl
    rw [h1, h2]
  · subst hk2
    simp [posAt]

/-- Executing any accepted sequence of list operations preserves the ring
representation invariant: the final heap links the sentinel and the
tracked element addresses into one closed doubly-linked ring, and the
list object records the sentinel and the exact element count. -/
theorem runOps_repr (s : Nat) :
    ∀ (ops : List LOp) (h : Heap) (l : IList) (ns : List Nat)
      (r : Heap × IList × List Nat),
      l.sent = s → l.size = ns.length → ringRepr h s ns →
      runOps s h l ns ops = some r →
      ringRepr r.1 s r.2.2 ∧ r.2.1.sent = s ∧ r.2.1.size = r.2.2.length := by
  intro ops
  induction ops with
  | nil =>
    intro h l ns r hsent hsize hrepr hrun
    simp only [runOps, Option.some.injEq] at hrun
    rw [← hrun]
    exact ⟨hrepr, hsent, hsize⟩
  | cons op rest ih =>
    intro h l ns r hsent hsize hrepr hrun
    obtain ⟨hch, hnd, hsm⟩ := hrepr
    cases op with
    | pushBack a =>
      by_cases hg : a ∈ ns ∨ a = s
      · simp [runOps, hg] at hrun
      · have ha1 : a ∉ ns := fun e => hg (Or.inl e)
        have ha2 : a ≠ s := fun e => hg (Or.inr e)
        simp only [runOps] at hrun
        rw [if_neg hg] at hrun
        simp only [listInsert] at hrun
        rw [hsent] at hrun
        refine ih _ _ _ r (by simp [hsent]) (by simp [hsize]) ?_ hrun
        refine ⟨?_, ?_, ?_⟩
        · have := insertHeap_chain h s ns [] a (by simpa using hch)
            (by simpa using hnd) (by simpa using hsm) (by simpa using ha1) ha2
          simpa using this
        · simp [List.nodup_append, hnd, ha1]
        · simp [hsm, Ne.symm ha2]
    | popBack =>
      by_cases hsz : l.size > 0
      · rcases List.eq_nil_or_concat' ns with rfl | ⟨u, b, rfl⟩
        · rw [hsize] at hsz
          simp at hsz
        · have hpb : (h l.sent).prev = b := by
            rw [hsent, chainNP_last h (u ++ [b]) s s hch, List.getLastD_concat]
          simp only [runOps, listPopBack] at hrun
          rw [if_pos hsz] at hrun
          simp only [listErase] at hrun
          rw [hpb, List.dropLast_concat] at hrun
          have hnd2 : (u ++ b :: []).Nodup := by simpa using hnd
          have hsm2 : s ∉ u ++ b :: [] := by simpa using hsm
          refine ih _ _ _ r (by simp [hsent]) ?_ ?_ hrun
          · simp only [List.length_append, List.length_cons] at hsize
            simp at hsize
            simp [hsize]
          · refine ⟨?_, ?_, ?_⟩
            · have := eraseHeap_chain h s u [] b (by simpa using hch) hnd2 hsm2
              simpa using this
            · exact (List.nodup_append.mp (by simpa using hnd)).1
            · exact fun e => hsm (by simp [e])
      · have hns : ns = [] := by
          rw [hsize] at hsz
          exact List.length_eq_zero.mp (by omega)
        subst hns
        simp only [runOps, listPopBack] at hrun
        rw [if_neg hsz] at hrun
        simp only [List.dropLast_nil] at hrun
        exact ih _ _ _ r hsent hsize ⟨hch, hnd, hsm⟩ hrun
    | insertAtIdx k a =>
      by_cases hg : k ≤ ns.length ∧ ¬(a ∈ ns ∨ a = s)
      · obtain ⟨hk, hga⟩ := hg
        have ha1 : a ∉ ns := fun e => hga (Or.inl e)
        have ha2 : a ≠ s := fun e => hga (Or.inr e)
        simp only [runOps] at hrun
        rw [if_pos ⟨hk, hga⟩] at hrun
        simp only [listInsert] at hrun
        rw [posAt_eq s ns k hk] at hrun
        refine ih _ _ _ r (by simp [hsent]) ?_ ?_ hrun
        · simp only [List.length_append, List.length_cons, List.length_take,
            List.length_drop]
          rw [hsize]
          omega
        · have htd : ns.take k ++ ns.drop k = ns := List.take_append_drop k ns
          refine ⟨?_, ?_, ?_⟩
          · exact insertHeap_chain h s (ns.take k) (ns.drop k) a
              (by rw [htd]; exact hch) (by rw [htd]; exact hnd)
              (by rw [htd]; exact hsm) (by rw [htd]; exact ha1) ha2
          · refine (List.perm_middle.nodup_iff).mpr ?_
            refine List.nodup_cons.mpr ⟨?_, by rw [htd]; exact hnd⟩
            rw [htd]
            exact ha1
          · intro e
            rcases List.mem_append.mp e with e | e
            · exact hsm (List.mem_of_mem_take e)
            · rcases List.mem_cons.mp e with e | e
              · exact ha2 (Eq.symm e)
              · exact hsm (List.mem_of_mem_drop e)
      · simp only [runOps] at hrun
        rw [if_neg hg] at hrun
        simp at hrun
    | eraseAtIdx k =>
      by_cases hg : k < ns.length
      · simp only [runOps] at hrun
        rw [if_pos hg] at hrun
        simp only [listErase] at hrun
        rw [List.getD_eq_getElem ns 0 hg] at hrun
        have hdecomp : ns.take k ++ ns[k] :: ns.drop (k + 1) = ns := by
          rw [List.get_drop_eq_drop ns k hg]
          exact List.take_append_drop k ns
        rw [List.eraseIdx_eq_take_drop_succ] at hrun
        refine ih _ _ _ r (by simp [hsent]) ?_ ?_ hrun
        · rw [hsize]
          simp only [List.length_append, List.length_take, List.length_drop,
            List.length_eraseIdx]
          omega
        · have hnd2 : (ns.take k ++ ns[k] :: ns.drop (k + 1)).Nodup := by
            rw [hdecomp]
            exact hnd
          refine ⟨?_, ?_, ?_⟩
          · exact eraseHeap_chain h s (ns.take k) (ns.drop (k + 1)) ns[k]
              (by rw [hdecomp]; exact hch) hnd2 (by rw [hdecomp]; exact hsm)
          · have := (List.perm_middle.nodup_iff).mp hnd2
            exact (List.nodup_cons.mp this).2
          · intro e
            rcases List.mem_append.mp e with e | e
            · exact hsm (List.mem_of_mem_take e)
            · exact hsm (List.mem_of_mem_drop e)
      · simp only [runOps] at hrun
        rw [if_neg hg] at hrun
        simp at hrun

/-- C7: after any accepted sequence of `push_back` / `pop_back` /
`insert` / `erase` operations on a freshly constructed list (each
respecting its precondition, which is what acceptance encodes), stepping
`size()` times from `begin()` along `next_` pointers reaches `end()`, the
reverse walk of `size()` steps from `end()` along `prev_` pointers
reaches `begin()`, and `size()` equals the number of linked elements. -/
theorem ilist_ring_integrity (s : Nat) (h0 : Heap) (ops : List LOp)
    (hs : (execOps s h0 ops).isSome = true) :
    ringNavOK (execOps s h0 ops) = true := by
  obtain ⟨r, hr⟩ := Option.isSome_iff_exists.mp hs
  have hinit : ringRepr (hset h0 s { next := s, prev := s }) s [] := by
    refine ⟨⟨?_, ?_⟩, List.nodup_nil, by simp⟩ <;> rw [hset_same]
  have hmain := runOps_repr s ops (hset h0 s { next := s, prev := s })
    { sent := s, size := 0 } [] r rfl rfl hinit
    (by simpa [execOps, listInit] using hr)
  obtain ⟨h, l, ns⟩ := r
  obtain ⟨⟨hch, hnd, hsm⟩, hsent, hsizes⟩ := hmain
  simp only at hch hnd hsm hsent hsizes
  rw [hr]
  simp only [ringNavOK]
  have hbegin : (h s).next = ns.headD s := chainNP_head h ns s s hch
  have hw1 := chainNP_walk h ns s s hch
  have hw2 := chainNP_walkPrev h ns s s hch
  simp only [List.headD_eq_head?] at hbegin hw1 hw2
  simp [hsent, hsizes, hbegin, hw1, hw2]

/-- Witness for `ilist_ring_integrity`: a concrete accepted run - three
`push_back`s, an `erase` of the middle element, a `pop_back` and a front
`insert` - on which the walk checks evaluate to true. -/
theorem ilist_ring_integrity_witness :
    ringNavOK (execOps 1 nullHeap demoOps) = true :=
  ilist_ring_integrity 1 nullHeap demoOps (by decide)

end RaIntrusive
